import Mathlib

/-!
Verification model of `log_parser.py`.

The source program parses web-server access-log lines with the regular
expression

  `(?P<ip>\d{1,3}\.\d{1,3}\.\d{1,3}\.\d{1,3}).*?\[(?P<date>.*?)\].*?`
  `"(?P<method>GET|POST|PUT|DELETE|HEAD|OPTIONS) (?P<url>\S+).*?" (?P<duration>\d+)$`

via `re.search`, and accumulates statistics (`total_requests`,
`method_counts`, `ip_counts`, a bounded `slow_requests` list) with
`process_entry`.  Here the relevant parts are shallowly embedded:

* the regular-expression search is embedded as a backtracking matcher over
  `List Char`, with the same alternative-ordering semantics as the Python
  `re` engine: lazy `.*?` prefers fewest characters, greedy `+` and `{1,3}`
  prefer most, alternation tries branches left to right, and `search` tries
  start positions left to right.  Lines are modelled without their trailing
  newline, so the `$` anchor is end-of-input (Python's `$` matches just
  before a trailing newline, and no other token of this pattern can consume
  a newline, so the two views agree on file lines).
* Python's insertion-ordered `dict`/`defaultdict` counters are embedded as
  association lists whose keys appear in first-seen order.
* Python's stable `list.sort(key=..., reverse=True)` / `sorted(...)` are
  embedded as `List.insertionSort` with the relation "key of the left
  argument is ≥ key of the right argument", which computes the same (unique)
  stable descending reordering.
* the fallible element access `self.slow_requests[-1]` is embedded with
  `Option`; `process_entry` therefore returns `Option LPState`, and a total
  function `step` is proved to agree with it everywhere.
-/

/-- The `LogEntry` record from the source: the `@dataclass` with fields
`ip`, `method`, `url`, `date`, `duration`. -/
structure LogEntry where
  ip : String
  method : String
  url : String
  date : String
  duration : Nat
deriving DecidableEq, Repr

/-- The capture groups of `LOG_PATTERN`, in the order they occur in the
pattern: `ip`, `date`, `method`, `url`, `duration` (all captured verbatim
as character sequences; `duration` is converted to a number only in
`parse_line`, mirroring `int(data['duration'])`). -/
structure Groups where
  ip : List Char
  date : List Char
  method : List Char
  url : List Char
  duration : List Char
deriving DecidableEq, Repr

/-- Python `\d` on the ASCII digits that can occur in the pattern's
context. -/
def isDigitC (c : Char) : Bool := c.isDigit

/-- Python whitespace class: the characters matched by `\s`
(space, tab, newline, carriage return, vertical tab, form feed). -/
def isPySpace (c : Char) : Bool :=
  c = ' ' || c = '\t' || c = '\n' || c = '\r' || c = '\x0b' || c = '\x0c'

/-- Python `\S`: any non-whitespace character. -/
def isNonSpace (c : Char) : Bool := !(isPySpace c)

/-- Regex `.` (no DOTALL flag): any character except newline. -/
def dotC (c : Char) : Bool := c != '\n'

/-- Greedy `{1,3}` repetition of a character class (used for the octets of
the IP): try the longest available run first (at most 3), backtracking down
to 1 character.  The continuation receives the consumed characters and the
rest of the input. -/
def digits13 {α : Type} (k : List Char → List Char → Option α) (s : List Char) : Option α :=
  let m := min 3 (s.takeWhile isDigitC).length
  (List.range m).findSome? (fun i => k (s.take (m - i)) (s.drop (m - i)))

/-- Greedy `+` repetition of a character class: longest run first,
backtracking down to 1 character. -/
def greedyPlus {α : Type} (p : Char → Bool) (k : List Char → List Char → Option α)
    (s : List Char) : Option α :=
  let m := (s.takeWhile p).length
  (List.range m).findSome? (fun i => k (s.take (m - i)) (s.drop (m - i)))

/-- Lazy `*?` repetition of a character class: fewest characters first,
extending one character at a time on failure of the continuation. -/
def lazyStar {α : Type} (p : Char → Bool) (k : List Char → List Char → Option α)
    (s : List Char) : Option α :=
  let m := (s.takeWhile p).length
  (List.range (m + 1)).findSome? (fun n => k (s.take n) (s.drop n))

/-- A literal character of the pattern. -/
def lit {α : Type} (c : Char) (k : List Char → Option α) : List Char → Option α
  | [] => none
  | x :: xs => if x = c then k xs else none

/-- Alternation of literal words, tried left to right (the
`GET|POST|PUT|DELETE|HEAD|OPTIONS` group). -/
def alts {α : Type} (ts : List (List Char)) (k : List Char → List Char → Option α)
    (s : List Char) : Option α :=
  ts.findSome? (fun t => if s.take t.length = t then k t (s.drop t.length) else none)

/-- The six HTTP method tokens of `LOG_PATTERN`, in source order. -/
def methodTokens : List (List Char) :=
  ["GET".toList, "POST".toList, "PUT".toList, "DELETE".toList,
   "HEAD".toList, "OPTIONS".toList]

/-- One attempt to match `LOG_PATTERN` at the start of `s0`, with full
backtracking; on success returns the captured groups of the first
(backtracking-order) match. -/
def matchAt (s0 : List Char) : Option Groups :=
  digits13 (fun d1 s => lit '.' (fun s =>
  digits13 (fun d2 s => lit '.' (fun s =>
  digits13 (fun d3 s => lit '.' (fun s =>
  digits13 (fun d4 s =>
  lazyStar dotC (fun _ s =>
  lit '[' (fun s =>
  lazyStar dotC (fun date s =>
  lit ']' (fun s =>
  lazyStar dotC (fun _ s =>
  lit '"' (fun s =>
  alts methodTokens (fun meth s =>
  lit ' ' (fun s =>
  greedyPlus isNonSpace (fun url s =>
  lazyStar dotC (fun _ s =>
  lit '"' (fun s =>
  lit ' ' (fun s =>
  greedyPlus isDigitC (fun dur s =>
  if s.isEmpty then
    some ⟨d1 ++ '.' :: d2 ++ '.' :: d3 ++ '.' :: d4, date, meth, url, dur⟩
  else none) s) s) s) s) s) s) s) s) s) s) s) s) s) s) s) s) s) s) s) s0

/-- Model of `LOG_PATTERN.search`: try to match at each start position from the left;
the first position admitting a match wins (Python `re.search`). -/
def LOG_PATTERN_search (s : List Char) : Option Groups :=
  (List.range (s.length + 1)).findSome? (fun i => matchAt (s.drop i))

/-- Conversion `int()` on a string of decimal digits. -/
def digitsToNat (l : List Char) : Nat :=
  l.foldl (fun a c => a * 10 + (c.toNat - 48)) 0

/-- Model of `LogParser.parse_line`: search the line with `LOG_PATTERN`; on failure
return no record (`None`), on success build the `LogEntry` from the named
groups, converting `duration` with `int`. -/
def parse_line (line : String) : Option LogEntry :=
  match LOG_PATTERN_search line.toList with
  | none => none
  | some g =>
      some ⟨String.mk g.ip, String.mk g.method, String.mk g.url,
            String.mk g.date, digitsToNat g.duration⟩

/-- The end-to-end example line of the specification: bracketed date, quoted
request line, status code `200`, trailing integer `150`. -/
def specLine : String :=
  "1.2.3.4 - - [10/Oct/2020:13:55:36] \"GET /index.html HTTP/1.1\" 200 150"

/-- The specification's example line with the status-code field removed, so
that the trailing integer directly follows the closing quote. -/
def specLineNoStatus : String :=
  "1.2.3.4 - - [10/Oct/2020:13:55:36] \"GET /index.html HTTP/1.1\" 150"

/-- A line whose request method is outside the enumerated set. -/
def badMethodLine : String := "1.2.3.4 - - [d] \"PATCH /x HTTP/1.1\" 150"

/-- A line with no bracket pair. -/
def noBracketLine : String := "1.2.3.4 - - 10/Oct \"GET /x\" 150"

/-- A line whose trailing token is not numeric. -/
def badDurationLine : String := "1.2.3.4 - - [d] \"GET /x\" abc"

/-- A line with no structure at all. -/
def junkLine : String := "hello"

/-! ## The accumulator (`LogParser.__init__` / `process_entry`) -/

/-- The mutable state of a `LogParser` instance: `total_requests`,
`method_counts`, `ip_counts` (insertion-ordered counters, embedded as
association lists in first-seen key order) and `slow_requests`. -/
structure LPState where
  total_requests : Nat
  method_counts : List (String × Nat)
  ip_counts : List (String × Nat)
  slow_requests : List LogEntry
deriving DecidableEq, Repr

/-- The state built by `LogParser.__init__`. -/
def initState : LPState := ⟨0, [], [], []⟩

/-- Incrementing `counter[key]` by 1 on a `defaultdict(int)`: an absent key is treated as
0 and appended at the end (Python dicts preserve insertion order). -/
def bump : List (String × Nat) → String → List (String × Nat)
  | [], k => [(k, 1)]
  | (k', v) :: rest, k =>
      if k' = k then (k', v + 1) :: rest else (k', v) :: bump rest k

/-- Descending comparison by a numeric key: `keyGE f a b` holds when `a`'s
key is at least `b`'s, so a list `Sorted (keyGE f)` is sorted in descending
key order. -/
def keyGE {α : Type} (f : α → Nat) (a b : α) : Prop := f b ≤ f a

instance {α : Type} (f : α → Nat) : DecidableRel (keyGE f) :=
  fun a b => Nat.decLe (f b) (f a)

instance {α : Type} (f : α → Nat) : IsTotal α (keyGE f) :=
  ⟨fun a b => Nat.le_total (f b) (f a)⟩

instance {α : Type} (f : α → Nat) : IsTrans α (keyGE f) :=
  ⟨fun _ _ _ h1 h2 => Nat.le_trans h2 h1⟩

/-- The admission test of `process_entry`:
`len(self.slow_requests) < 3 or entry.duration > self.slow_requests[-1].duration`.
The `or` short-circuits; the indexing `[-1]` is fallible, so the result is
an `Option` (`none` models an `IndexError`). -/
def slowCheckM (slow : List LogEntry) (e : LogEntry) : Option Bool :=
  if slow.length < 3 then some true
  else
    match slow.getLast? with
    | some l => some (decide (l.duration < e.duration))
    | none => none

/-- Model of `LogParser.process_entry`: increment `total_requests`, bump the method
and IP counters, and if the admission test passes, append the entry to
`slow_requests`, re-sort it descending by duration
(`sort(key=..., reverse=True)`, a stable sort) and truncate to 3. -/
def process_entry (s : LPState) (e : LogEntry) : Option LPState :=
  let s' : LPState :=
    ⟨s.total_requests + 1, bump s.method_counts e.method,
     bump s.ip_counts e.ip, s.slow_requests⟩
  match slowCheckM s'.slow_requests e with
  | none => none
  | some true =>
      some ⟨s'.total_requests, s'.method_counts, s'.ip_counts,
            ((s'.slow_requests ++ [e]).insertionSort (keyGE LogEntry.duration)).take 3⟩
  | some false => some s'

/-- Total (Boolean) form of the admission test; `process_entry` is proved to
agree with `step` (built from it) everywhere. -/
def slowCheck (slow : List LogEntry) (e : LogEntry) : Bool :=
  decide (slow.length < 3) || slow.getLast?.any (fun l => decide (l.duration < e.duration))

/-- Total form of `process_entry` (the `IndexError` branch is unreachable
because the length test short-circuits first; see `process_entry_eq_step`). -/
def step (s : LPState) (e : LogEntry) : LPState :=
  ⟨s.total_requests + 1, bump s.method_counts e.method, bump s.ip_counts e.ip,
   if slowCheck s.slow_requests e then
     ((s.slow_requests ++ [e]).insertionSort (keyGE LogEntry.duration)).take 3
   else s.slow_requests⟩

/-- Processing a whole sequence of parsed records from the empty state. -/
def run (es : List LogEntry) : LPState := es.foldl step initState

/-- Model of `LogParser.analyze_file`, over the lines of the file: parse each line
and process it when a record is produced, skipping it otherwise. -/
def analyze_lines (s : LPState) (lines : List String) : Option LPState :=
  lines.foldlM
    (fun s line =>
      match parse_line line with
      | none => some s
      | some e => process_entry s e) s

/-- Model of `LogParser.get_top_ips`:
`sorted(self.ip_counts.items(), key=lambda x: x[1], reverse=True)[:n]`
(stable descending sort of the counter items by count, then take `n`). -/
def get_top_ips (s : LPState) (n : Nat) : List (String × Nat) :=
  (s.ip_counts.insertionSort (keyGE Prod.snd)).take n

/-! ## Concrete inputs used by the testable properties -/

/-- A record with a given duration (other fields fixed). -/
def mkDur (d : Nat) : LogEntry := ⟨"9.9.9.9", "GET", "/p", "01/Jan/2021", d⟩

/-- Four pairwise distinct records with duration 50 each. -/
def entA : LogEntry := ⟨"1.1.1.1", "GET", "/a", "t1", 50⟩

/-- Second duration-50 record. -/
def entB : LogEntry := ⟨"2.2.2.2", "POST", "/b", "t2", 50⟩

/-- Third duration-50 record. -/
def entC : LogEntry := ⟨"3.3.3.3", "PUT", "/c", "t3", 50⟩

/-- Fourth duration-50 record. -/
def entD : LogEntry := ⟨"4.4.4.4", "GET", "/d", "t4", 50⟩

/-- An accumulator state whose IP counter holds {A: 5, B: 5, C: 2, D: 1}
in that insertion order. -/
def demoCounts : LPState :=
  ⟨13, [], [("A", 5), ("B", 5), ("C", 2), ("D", 1)], []⟩

/-- Insert `e` after every element whose key is at least `f e` — the
position the stable sort gives to an element appended at the end of the
input. -/
def insEnd {α : Type} (f : α → Nat) (e : α) : List α → List α
  | [] => [e]
  | x :: xs => if f e ≤ f x then x :: insEnd f e xs else e :: x :: xs

/-- Sum of the values of a counter mapping. -/
def sumVals (m : List (String × Nat)) : Nat := (m.map Prod.snd).sum

/-- The IP addresses of a record sequence, in order of first occurrence. -/
def seen_ips (es : List LogEntry) : List String :=
  es.foldl (fun acc e => if e.ip ∈ acc then acc else acc ++ [e.ip]) []

/-! ## The command-line driver (`main` and the `__main__` guard) -/

/-- The classification of the input path that `main` branches on:
`os.path.isfile`, `os.path.isdir`, or neither. -/
inductive PathKind
  | file
  | dir
  | neither
deriving DecidableEq, Repr

/-- The value `main()` returns: `1` on the invalid-path branch
(`return 1` after printing the error), and `None` (here `none`) when it
falls off the end of the file or directory branch. -/
def main_return (k : PathKind) : Option Nat :=
  match k with
  | .file => none
  | .dir => none
  | .neither => some 1

/-- Whether `main` prints the invalid-path error message
(`print` in the `else` branch). -/
def main_prints_error (k : PathKind) : Bool :=
  match k with
  | .file => false
  | .dir => false
  | .neither => true

/-- The process exit status of the script.  The `__main__` guard is the bare
call `main()`: the returned value is discarded, `sys.exit` is never called,
and none of the modelled branches raises, so the interpreter exits with
status 0 for every path classification. -/
def script_exit_code (k : PathKind) : Nat :=
  match main_return k with
  | _ => 0

/-! ## Properties of the stable descending sort

`insertionSort (keyGE f)` is the unique stable descending reordering by the
key `f`, hence a faithful model of Python's stable `sort`/`sorted` with
`reverse=True`.  The lemmas below describe how it interacts with appending
one element at the end (`insEnd`), truncation, and filtering by a key
value. -/

lemma orderedInsert_insEnd {α : Type} (f : α → Nat) (a e : α) :
    ∀ m : List α,
      List.orderedInsert (keyGE f) a (insEnd f e m)
        = insEnd f e (List.orderedInsert (keyGE f) a m)
  | [] => by simp [insEnd, List.orderedInsert, keyGE]
  | x :: xs => by
      have ih := orderedInsert_insEnd f a e xs
      by_cases h1 : f e ≤ f x
      · by_cases h2 : f x ≤ f a
        · have hae : f e ≤ f a := Nat.le_trans h1 h2
          simp [insEnd, List.orderedInsert, keyGE, h1, h2, hae]
        · simp [insEnd, List.orderedInsert, keyGE, h1, h2, ih]
      · by_cases h3 : f e ≤ f a
        · have h2 : f x ≤ f a := by omega
          simp [insEnd, List.orderedInsert, keyGE, h1, h2, h3]
        · by_cases h2 : f x ≤ f a
          · simp [insEnd, List.orderedInsert, keyGE, h1, h2, h3]
          · simp [insEnd, List.orderedInsert, keyGE, h1, h2, h3]

/-- Stably sorting a list with one element appended is the same as stably
sorting the list and then inserting that element after its key-peers. -/
lemma insertionSort_append {α : Type} (f : α → Nat) (e : α) :
    ∀ l : List α,
      (l ++ [e]).insertionSort (keyGE f) = insEnd f e (l.insertionSort (keyGE f))
  | [] => by simp [List.insertionSort, insEnd]
  | a :: l => by
      have ih := insertionSort_append f e l
      show List.orderedInsert (keyGE f) a ((l ++ [e]).insertionSort (keyGE f))
          = insEnd f e (List.orderedInsert (keyGE f) a (l.insertionSort (keyGE f)))
      rw [ih, orderedInsert_insEnd]

lemma take_take_cons {α : Type} : ∀ (n : Nat) (x : α) (xs : List α),
    (x :: xs).take n = (x :: xs.take n).take n
  | 0, _, _ => rfl
  | n + 1, x, xs => by
      simp [List.take_succ_cons, List.take_take, Nat.min_eq_left (Nat.le_succ n)]

/-- The first `n` elements after a stable end-insertion only depend on the
first `n` elements of the list inserted into. -/
lemma take_insEnd {α : Type} (f : α → Nat) (e : α) :
    ∀ (L : List α) (n : Nat), (insEnd f e L).take n = (insEnd f e (L.take n)).take n
  | [], n => by simp [insEnd]
  | x :: xs, 0 => by simp
  | x :: xs, n + 1 => by
      have ih := take_insEnd f e xs n
      by_cases h : f e ≤ f x
      · simp [insEnd, h, List.take_succ_cons, ih]
      · simp only [insEnd, h, if_neg, List.take_succ_cons, if_false]
        simp [take_take_cons n x xs]

lemma filter_orderedInsert {α : Type} (f : α → Nat) (a : α) (c : Nat) :
    ∀ m : List α,
      (List.orderedInsert (keyGE f) a m).filter (fun x => decide (f x = c))
        = if f a = c then a :: m.filter (fun x => decide (f x = c))
          else m.filter (fun x => decide (f x = c))
  | [] => by
      simp only [List.orderedInsert, List.filter]
      split_ifs <;> simp [*]
  | x :: xs => by
      have ih := filter_orderedInsert f a c xs
      by_cases h1 : keyGE f a x
      · by_cases h2 : f a = c <;> by_cases h3 : f x = c <;>
          simp [List.orderedInsert, h1, List.filter_cons, h2, h3]
      · have hx : f a < f x := by
          simp only [keyGE] at h1; omega
        by_cases h2 : f a = c
        · have h3 : ¬ f x = c := by omega
          simp [List.orderedInsert, h1, List.filter_cons, ih, h2, h3]
        · by_cases h3 : f x = c <;>
            simp [List.orderedInsert, h1, List.filter_cons, ih, h2, h3]

/-- Stability of the sort, phrased through filters: the elements whose key
equals any fixed value `c` appear in the sorted list exactly as they appear
in the input. -/
lemma filter_insertionSort {α : Type} (f : α → Nat) (c : Nat) :
    ∀ l : List α,
      (l.insertionSort (keyGE f)).filter (fun x => decide (f x = c))
        = l.filter (fun x => decide (f x = c))
  | [] => rfl
  | a :: l => by
      have ih := filter_insertionSort f c l
      by_cases h : f a = c <;>
        simp [List.insertionSort, filter_orderedInsert, ih, List.filter_cons, h]

/-! ## Agreement of `process_entry` with its total form -/

lemma process_entry_eq (s : LPState) (e : LogEntry) :
    process_entry s e = some (step s e) := by
  by_cases hlen : s.slow_requests.length < 3
  · simp [process_entry, step, slowCheckM, slowCheck, hlen]
  · rcases hsl : s.slow_requests.getLast? with _ | l
    · rw [List.getLast?_eq_none_iff] at hsl
      rw [hsl] at hlen
      simp at hlen
    · by_cases hd : l.duration < e.duration
      · simp [process_entry, step, slowCheckM, slowCheck, hlen, hsl, hd]
      · simp [process_entry, step, slowCheckM, slowCheck, hlen, hsl, hd]

/-! ## The slow-list invariant

After any sequence of processed records, `slow_requests` is exactly the
first three elements of the stable descending sort of everything processed
so far. -/

lemma slow_pairwise_of_eq (p : List LogEntry) (s : LPState)
    (h : s.slow_requests = (p.insertionSort (keyGE LogEntry.duration)).take 3) :
    s.slow_requests.Pairwise (keyGE LogEntry.duration) := by
  rw [h]
  exact List.Pairwise.sublist (List.take_sublist 3 _)
    (List.sorted_insertionSort (keyGE LogEntry.duration) p)

lemma step_slow (p : List LogEntry) (e : LogEntry) (s : LPState)
    (h : s.slow_requests = (p.insertionSort (keyGE LogEntry.duration)).take 3) :
    (step s e).slow_requests
      = ((p ++ [e]).insertionSort (keyGE LogEntry.duration)).take 3 := by
  have hsorted := slow_pairwise_of_eq p s h
  rw [insertionSort_append, take_insEnd, ← h]
  show (if slowCheck s.slow_requests e then
          ((s.slow_requests ++ [e]).insertionSort (keyGE LogEntry.duration)).take 3
        else s.slow_requests)
      = (insEnd LogEntry.duration e s.slow_requests).take 3
  by_cases hc : slowCheck s.slow_requests e = true
  · rw [if_pos hc, insertionSort_append, List.Sorted.insertionSort_eq hsorted]
  · rw [if_neg hc]
    have hlen3 : s.slow_requests.length = 3 := by
      have h1 : ¬ s.slow_requests.length < 3 := by
        intro hlt
        exact hc (by simp [slowCheck, hlt])
      have h2 : s.slow_requests.length ≤ 3 := by
        rw [h]
        exact List.length_take_le 3 (p.insertionSort (keyGE LogEntry.duration))
      omega
    obtain ⟨a, b, c, habc⟩ := List.length_eq_three.mp hlen3
    have hlast : ¬ c.duration < e.duration := by
      intro hlt
      exact hc (by simp [slowCheck, habc, hlt])
    rw [habc] at hsorted ⊢
    simp only [List.pairwise_cons, List.mem_cons, List.mem_singleton, keyGE] at hsorted
    have hba : b.duration ≤ a.duration := hsorted.1 b (by simp)
    have hcb : c.duration ≤ b.duration := hsorted.2.1 c (by simp)
    have hca : c.duration ≤ a.duration := hsorted.1 c (by simp)
    have hea : e.duration ≤ a.duration := by omega
    have heb : e.duration ≤ b.duration := by omega
    have hec : e.duration ≤ c.duration := by omega
    simp [insEnd, hea, heb, hec]

lemma foldl_step_slow : ∀ (es : List LogEntry) (s : LPState) (p : List LogEntry),
    s.slow_requests = (p.insertionSort (keyGE LogEntry.duration)).take 3 →
    (es.foldl step s).slow_requests
      = ((p ++ es).insertionSort (keyGE LogEntry.duration)).take 3
  | [], s, p, h => by simpa using h
  | e :: es, s, p, h => by
      have h1 := step_slow p e s h
      have h2 := foldl_step_slow es (step s e) (p ++ [e]) h1
      simpa [List.append_assoc] using h2

/-- The slow-list invariant, from the empty state. -/
lemma run_slow (es : List LogEntry) :
    (run es).slow_requests = (es.insertionSort (keyGE LogEntry.duration)).take 3 := by
  simpa using foldl_step_slow es initState [] (by simp [initState, List.insertionSort])

/-! ## Counter invariants -/

lemma sumVals_bump : ∀ (m : List (String × Nat)) (k : String),
    sumVals (bump m k) = sumVals m + 1
  | [], k => by simp [bump, sumVals]
  | (k', v) :: rest, k => by
      have ih := sumVals_bump rest k
      by_cases hk : k' = k <;> simp [bump, hk, sumVals] at ih ⊢ <;> omega

lemma foldl_totals : ∀ (es : List LogEntry) (s : LPState),
    (es.foldl step s).total_requests = s.total_requests + es.length
    ∧ sumVals (es.foldl step s).method_counts = sumVals s.method_counts + es.length
    ∧ sumVals (es.foldl step s).ip_counts = sumVals s.ip_counts + es.length
  | [], s => by simp
  | e :: es, s => by
      obtain ⟨h1, h2, h3⟩ := foldl_totals es (step s e)
      have hst : (step s e).total_requests = s.total_requests + 1 := rfl
      have hsm : (step s e).method_counts = bump s.method_counts e.method := rfl
      have hsi : (step s e).ip_counts = bump s.ip_counts e.ip := rfl
      refine ⟨?_, ?_, ?_⟩ <;>
        simp only [List.foldl_cons, List.length_cons, h1, h2, h3, hst, hsm, hsi,
          sumVals_bump] <;> omega

/-! ## First-seen order of counter keys -/

lemma bump_keys : ∀ (m : List (String × Nat)) (k : String),
    (bump m k).map Prod.fst
      = if k ∈ m.map Prod.fst then m.map Prod.fst else m.map Prod.fst ++ [k]
  | [], k => by simp [bump]
  | (k', v) :: rest, k => by
      have ih := bump_keys rest k
      by_cases hk : k' = k
      · simp [bump, hk]
      · have hk' : ¬ k = k' := fun hkk => hk hkk.symm
        by_cases hmem : k ∈ rest.map Prod.fst <;>
          simp [bump, hk, hk', hmem, ih, List.mem_cons]

lemma foldl_ip_keys : ∀ (es : List LogEntry) (s : LPState),
    (es.foldl step s).ip_counts.map Prod.fst
      = es.foldl (fun acc e => if e.ip ∈ acc then acc else acc ++ [e.ip])
          (s.ip_counts.map Prod.fst)
  | [], _ => rfl
  | e :: es, s => by
      have ih := foldl_ip_keys es (step s e)
      simp only [List.foldl_cons, ih]
      congr 1
      exact bump_keys s.ip_counts e.ip

/-- The keys of `ip_counts` after a run are the IPs in first-seen order. -/
lemma run_ip_keys (es : List LogEntry) :
    (run es).ip_counts.map Prod.fst = seen_ips es :=
  foldl_ip_keys es initState

/-! ## Evaluation of the parser on the concrete example lines -/

/-- The spec's end-to-end line does not match `LOG_PATTERN`: the pattern
demands the end-anchored duration right after the closing quote and a
space, but in this line the status code `200` stands there, so every
backtracking alternative fails. -/
lemma parse_specLine_none : parse_line specLine = none := by decide

/-- With the status-code field removed the same line parses, with the
fields the spec expects; so the failure on `specLine` is caused exactly by
the intervening `200`. -/
lemma parse_specLineNoStatus :
    parse_line specLineNoStatus =
      some ⟨"1.2.3.4", "GET", "/index.html", "10/Oct/2020:13:55:36", 150⟩ := by decide

/-- The loop of `analyze_file` never fails and is equivalent to processing the
successfully parsed records in order, skipping non-matching lines. -/
lemma analyze_lines_eq : ∀ (lines : List String) (s : LPState),
    analyze_lines s lines = some ((lines.filterMap parse_line).foldl step s)
  | [], _ => rfl
  | line :: lines, s => by
      rcases hp : parse_line line with _ | e
      · have ih := analyze_lines_eq lines s
        simp [analyze_lines, List.filterMap_cons, hp] at ih ⊢
        exact ih
      · have ih := analyze_lines_eq lines (step s e)
        simp [analyze_lines, List.filterMap_cons, hp, process_entry_eq] at ih ⊢
        exact ih

/-- The Boolean admission test, unfolded to the specification's wording:
fewer than 3 entries kept, or the duration strictly exceeds that of the
current last element. -/
lemma slowCheck_iff (slow : List LogEntry) (e : LogEntry) :
    slowCheck slow e = true
      ↔ (slow.length < 3
          ∨ slow.getLast?.any (fun l => decide (l.duration < e.duration)) = true) := by
  simp [slowCheck]

/-! ## The claims -/

/-- C1 (counterexample): contrary to the specification's end-to-end
example, parsing the line
`1.2.3.4 - - [10/Oct/2020:13:55:36] "GET /index.html HTTP/1.1" 200 150`
does not produce the record (ip 1.2.3.4, GET, /index.html,
10/Oct/2020:13:55:36, 150). -/
theorem c1_claim_counterexample :
    (parse_line specLine
       = some ⟨"1.2.3.4", "GET", "/index.html", "10/Oct/2020:13:55:36", 150⟩)
      = False :=
  eq_false (by simp [parse_specLine_none])

/-- C1 (amended): parsing that line with `parse_line` returns no record
(`None`): the pattern requires the trailing integer to follow the closing
quote and a single space directly, and the status code `200` standing
there makes the end-anchored duration unmatchable. -/
theorem c1_claim : parse_line specLine = none := parse_specLine_none

/-- C2: `process` appends the record to the slow list exactly when the list
holds fewer than 3 entries or the record's duration strictly exceeds the
duration of the list's current last element, then re-sorts descending by
duration (stably) and truncates to 3; and processing durations
[10, 20, 30, 25] from the empty state leaves durations [30, 25, 20]. -/
theorem c2_claim :
    (∀ (s : LPState) (e : LogEntry),
      (step s e).slow_requests
        = if s.slow_requests.length < 3
              ∨ s.slow_requests.getLast?.any
                  (fun l => decide (l.duration < e.duration)) = true
          then ((s.slow_requests ++ [e]).insertionSort (keyGE LogEntry.duration)).take 3
          else s.slow_requests)
    ∧ (run [mkDur 10, mkDur 20, mkDur 30, mkDur 25]).slow_requests
        = [mkDur 30, mkDur 25, mkDur 20] := by
  refine ⟨?_, by decide⟩
  intro s e
  show (if slowCheck s.slow_requests e then
          ((s.slow_requests ++ [e]).insertionSort (keyGE LogEntry.duration)).take 3
        else s.slow_requests) = _
  by_cases hc : slowCheck s.slow_requests e = true
  · rw [if_pos hc, if_pos ((slowCheck_iff s.slow_requests e).mp hc)]
  · rw [if_neg hc, if_neg (fun hp => hc ((slowCheck_iff s.slow_requests e).mpr hp))]

/-- C3: when the slow list holds 3 entries, a record whose duration equals
the duration of the last element — which is the list's minimum, as the
accompanying conjunct certifies — is rejected and the slow list is left
unchanged; and processing four records of duration 50 each keeps exactly
the first three processed. -/
theorem c3_claim (s : LPState) (e l : LogEntry)
    (hlen : s.slow_requests.length = 3)
    (hsort : s.slow_requests.Pairwise (keyGE LogEntry.duration))
    (hlast : s.slow_requests.getLast? = some l)
    (heq : e.duration = l.duration) :
    (step s e).slow_requests = s.slow_requests
    ∧ (∀ x ∈ s.slow_requests, l.duration ≤ x.duration)
    ∧ (run [entA, entB, entC, entD]).slow_requests = [entA, entB, entC] := by
  obtain ⟨a, b, c, habc⟩ := List.length_eq_three.mp hlen
  rw [habc] at hsort hlast
  have hlc : l = c := by
    simp only [List.getLast?_cons_cons] at hlast
    simpa using hlast.symm
  subst hlc
  rw [List.pairwise_cons] at hsort
  obtain ⟨ha, hsort2⟩ := hsort
  rw [List.pairwise_cons] at hsort2
  obtain ⟨hb, _⟩ := hsort2
  have hba : b.duration ≤ a.duration := ha b (by simp)
  have hla : l.duration ≤ a.duration := ha l (by simp)
  have hlb : l.duration ≤ b.duration := hb l (by simp)
  refine ⟨?_, ?_, by decide⟩
  · show (if slowCheck s.slow_requests e then
          ((s.slow_requests ++ [e]).insertionSort (keyGE LogEntry.duration)).take 3
        else s.slow_requests) = s.slow_requests
    rw [habc]
    have hfalse : slowCheck [a, b, l] e = false := by
      simp [slowCheck, decide_eq_false_iff_not]
      omega
    rw [hfalse]
    simp
  · intro x hx
    rw [habc] at hx
    rcases List.mem_cons.mp hx with rfl | hx2
    · exact hla
    · rcases List.mem_cons.mp hx2 with rfl | hx3
      · exact hlb
      · rcases List.mem_cons.mp hx3 with rfl | hx4
        · exact Nat.le_refl _
        · cases hx4

/-- C3 witness: from the state reached after three duration-50 records, a
fourth duration-50 record is rejected. -/
theorem c3_claim_witness :
    (step (run [entA, entB, entC]) entD).slow_requests
      = (run [entA, entB, entC]).slow_requests :=
  (c3_claim (run [entA, entB, entC]) entD entC (by decide) (by decide)
    (by decide) (by decide)).1

/-- C4: after processing any sequence of records from the empty state, the
slow list has length min 3 N, is sorted descending by duration, and for
every duration value the kept records of that duration appear in processing
order (a sublist of the input's records of that duration). -/
theorem c4_claim (es : List LogEntry) :
    (run es).slow_requests.length = min 3 es.length
    ∧ (run es).slow_requests.Pairwise (keyGE LogEntry.duration)
    ∧ ∀ d : Nat,
        List.Sublist
          ((run es).slow_requests.filter (fun x => decide (x.duration = d)))
          (es.filter (fun x => decide (x.duration = d))) := by
  refine ⟨?_, slow_pairwise_of_eq es (run es) (run_slow es), ?_⟩
  · rw [run_slow, List.length_take,
      (List.perm_insertionSort (keyGE LogEntry.duration) es).length_eq]
  · intro d
    rw [run_slow]
    have h1 := List.Sublist.filter (fun x => decide (LogEntry.duration x = d))
      (List.take_sublist 3 (es.insertionSort (keyGE LogEntry.duration)))
    rwa [filter_insertionSort] at h1

/-- C5: after processing any sequence of N records from the empty state,
`total_requests` is N and the method and IP counters each sum to N. -/
theorem c5_claim (es : List LogEntry) :
    (run es).total_requests = es.length
    ∧ sumVals (run es).method_counts = es.length
    ∧ sumVals (run es).ip_counts = es.length := by
  have h := foldl_totals es initState
  simpa [run, initState, sumVals] using h

/-- C6: the exit code is 0 on the success branches, and on an invalid path
the error message is printed and `main` returns 1 — but the bare `main()`
call in the `__main__` guard discards that value, so the process still
exits with status 0, not the non-zero code the claim states. -/
theorem c6_claim :
    script_exit_code PathKind.file = 0
    ∧ script_exit_code PathKind.dir = 0
    ∧ main_prints_error PathKind.neither = true
    ∧ main_return PathKind.neither = some 1
    ∧ script_exit_code PathKind.neither = 0 :=
  ⟨rfl, rfl, rfl, rfl, rfl⟩

/-- C7: every line on which the pattern search fails parses to no record
(returning `None`, never an error), the analysis loop never fails and is
the fold over just the successfully parsed records, whose number is what
`total_requests` counts; lines with a method outside the set, a missing
bracket pair, a non-numeric trailing token, or no structure are concrete
such rejections. -/
theorem c7_claim (lines : List String) :
    (∀ line : String, LOG_PATTERN_search line.toList = none → parse_line line = none)
    ∧ analyze_lines initState lines
        = some ((lines.filterMap parse_line).foldl step initState)
    ∧ ((lines.filterMap parse_line).foldl step initState).total_requests
        = (lines.filterMap parse_line).length
    ∧ parse_line badMethodLine = none
    ∧ parse_line noBracketLine = none
    ∧ parse_line badDurationLine = none
    ∧ parse_line junkLine = none := by
  refine ⟨?_, analyze_lines_eq lines initState, ?_, by decide, by decide, by decide,
    by decide⟩
  · intro line h
    have h' : LOG_PATTERN_search line.data = none := h
    simp [parse_line, h']
  · have h := foldl_totals (lines.filterMap parse_line) initState
    simpa [initState] using h.1

/-- C7 witness: a structureless line is rejected without error. -/
theorem c7_claim_witness : parse_line junkLine = none :=
  (c7_claim []).1 junkLine (by decide)

/-- C8: `get_top_ips` returns at most `n` pairs drawn from the IP counter,
sorted descending by count, and no returned pair has a smaller count than
any omitted entry of the counter; on counts {A: 5, B: 5, C: 2, D: 1} the
top 3 are A, B (the tie in first-seen order) then C, and D is excluded. -/
theorem c8_claim (s : LPState) (n : Nat) :
    (get_top_ips s n).length ≤ n
    ∧ (get_top_ips s n).Pairwise (keyGE (Prod.snd : String × Nat → Nat))
    ∧ (∀ p ∈ get_top_ips s n, p ∈ s.ip_counts)
    ∧ (∀ p ∈ get_top_ips s n, ∀ q ∈ s.ip_counts, q ∉ get_top_ips s n → q.2 ≤ p.2)
    ∧ get_top_ips demoCounts 3 = [("A", 5), ("B", 5), ("C", 2)] := by
  refine ⟨List.length_take_le n _,
    List.Pairwise.sublist (List.take_sublist n _)
      (List.sorted_insertionSort (keyGE (Prod.snd : String × Nat → Nat)) s.ip_counts),
    ?_, ?_, by decide⟩
  · intro p hp
    have hmem : p ∈ s.ip_counts.insertionSort (keyGE Prod.snd) :=
      (List.take_sublist n _).subset hp
    simpa using hmem
  · intro p hp q hq hqnot
    have hq' : q ∈ s.ip_counts.insertionSort (keyGE Prod.snd) := by simpa using hq
    have hsorted := List.sorted_insertionSort (keyGE (Prod.snd : String × Nat → Nat))
      s.ip_counts
    rw [← List.take_append_drop n (s.ip_counts.insertionSort (keyGE Prod.snd))]
      at hsorted hq'
    rcases List.mem_append.mp hq' with hq1 | hq2
    · exact absurd hq1 hqnot
    · exact (List.pairwise_append.mp hsorted).2.2 p hp q hq2

/-- C8 witness: on the demo counter, the omitted D (count 1) has no larger
count than the returned A (count 5). -/
theorem c8_claim_witness : ((("D", 1) : String × Nat)).2 ≤ ((("A", 5) : String × Nat)).2 :=
  (c8_claim demoCounts 3).2.2.2.1 ("A", 5) (by decide) ("D", 1) (by decide) (by decide)

/-- C9: `process_entry` is total for every state and record: the admission
test (whose last-element access is guarded by the short-circuiting length
test) always produces a value, and `process_entry` always returns a state,
the one computed by the total function `step`. -/
theorem c9_claim (s : LPState) (e : LogEntry) :
    (slowCheckM s.slow_requests e).isSome = true
    ∧ process_entry s e = some (step s e) := by
  refine ⟨?_, process_entry_eq s e⟩
  unfold slowCheckM
  by_cases hlen : s.slow_requests.length < 3
  · simp [hlen]
  · rcases hsl : s.slow_requests.getLast? with _ | l
    · rw [List.getLast?_eq_none_iff] at hsl
      rw [hsl] at hlen
      simp at hlen
    · simp [hlen, hsl]

/-- C10 (implicit): ties in `get_top_ips` are broken by first-seen order:
for every count value, the returned pairs with that count appear in the
order of the IP counter, whose key order is the order of first occurrence
in the processed records; concretely, two IPs tied at count 2 come back
with the first-processed IP first. -/
theorem c10_claim (es : List LogEntry) (n : Nat) :
    (∀ c : Nat,
      List.Sublist
        ((get_top_ips (run es) n).filter (fun p => decide (p.2 = c)))
        ((run es).ip_counts.filter (fun p => decide (p.2 = c))))
    ∧ (run es).ip_counts.map Prod.fst = seen_ips es
    ∧ get_top_ips (run [entB, entA, entB, entA]) 2
        = [("2.2.2.2", 2), ("1.1.1.1", 2)] := by
  refine ⟨?_, run_ip_keys es, by decide⟩
  intro c
  have h1 := List.Sublist.filter (fun p => decide (Prod.snd p = c))
    (List.take_sublist n ((run es).ip_counts.insertionSort (keyGE Prod.snd)))
  rwa [filter_insertionSort] at h1
